import Mathlib

/-!
Verification of the algorithms library (Fibonacci, searching, sorting, graph
traversal) against its natural-language specification.  Each C++ routine from
`src/include` is shallowly embedded as an executable Lean function operating on
lists, and the spec's properties are proved (or refuted) about those functions.
-/

namespace Algorithms

/-! ### Sequence generator (`dynamic_programming/fibonacci.hpp`)

The C++ routine
```
template<Addable T = int>
T fibonacci(int n, T startValue = 0, T nextValue = 1) {
    if (n < 0) throw std::invalid_argument("n must be non-negative");
    if (n == 0) return startValue;
    if (n == 1) return nextValue;
    T v0 = startValue; T v1 = nextValue;
    for (int i = 2; i <= n; ++i) { T temp = v1; v1 = v0 + v1; v0 = temp; }
    return v1;
}
```
is embedded with the thrown exception modelled as `Except.error` and the loop
(`n - 1` iterations for `n >= 2`) as the structural recursion `fibLoop`. -/

/-- One step of the rolling-accumulator loop: `temp = v1; v1 = v0 + v1; v0 = temp`,
iterated `k` times, returning the final `v1`. -/
def fibLoop {α : Type} [Add α] : Nat → α → α → α
  | 0, _, v1 => v1
  | k + 1, v0, v1 => fibLoop k v1 (v0 + v1)

/-- Embedding of `algorithms::dynamic_programming::fibonacci`. -/
def fibonacci {α : Type} [Add α] (n : Int) (startValue : α) (nextValue : α) :
    Except String α :=
  if n < 0 then Except.error "n must be non-negative"
  else if n = 0 then Except.ok startValue
  else if n = 1 then Except.ok nextValue
  else Except.ok (fibLoop (n.toNat - 1) startValue nextValue)

/-- The recurrence named by the spec: `v[i] = v[i-1] + v[i-2]`, `v[0] = v0`,
`v[1] = v1`. -/
def recSeq {α : Type} [Add α] (v0 v1 : α) : Nat → α
  | 0 => v0
  | 1 => v1
  | n + 2 => recSeq v0 v1 (n + 1) + recSeq v0 v1 n

theorem fibLoop_recSeq {α : Type} [Add α] (hcomm : ∀ a b : α, a + b = b + a)
    (v0 v1 : α) : ∀ (k m : Nat),
    fibLoop k (recSeq v0 v1 m) (recSeq v0 v1 (m + 1)) = recSeq v0 v1 (m + 1 + k) := by
  intro k
  induction k with
  | zero => intro m; rfl
  | succ k ih =>
      intro m
      have hstep : recSeq v0 v1 m + recSeq v0 v1 (m + 1) = recSeq v0 v1 (m + 2) := by
        rw [hcomm]; rfl
      calc fibLoop (k + 1) (recSeq v0 v1 m) (recSeq v0 v1 (m + 1))
          = fibLoop k (recSeq v0 v1 (m + 1)) (recSeq v0 v1 m + recSeq v0 v1 (m + 1)) := rfl
        _ = fibLoop k (recSeq v0 v1 (m + 1)) (recSeq v0 v1 (m + 1 + 1)) := by rw [hstep]
        _ = recSeq v0 v1 (m + 1 + 1 + k) := ih (m + 1)
        _ = recSeq v0 v1 (m + 1 + (k + 1)) := by ring_nf

theorem fibonacci_ok_recSeq {α : Type} [Add α] (hcomm : ∀ a b : α, a + b = b + a)
    (v0 v1 : α) (n : Nat) :
    fibonacci (n : Int) v0 v1 = Except.ok (recSeq v0 v1 n) := by
  match n with
  | 0 => rfl
  | 1 => rfl
  | n + 2 =>
      have h0 : ¬ ((n : Int) + 2 < 0) := by omega
      have h1 : ¬ ((n : Int) + 2 = 0) := by omega
      have h2 : ¬ ((n : Int) + 2 = 1) := by omega
      have htn : ((n : Int) + 2).toNat - 1 = n + 1 := by omega
      have hcast : ((n + 2 : Nat) : Int) = (n : Int) + 2 := by push_cast; ring
      rw [fibonacci, hcast, if_neg h0, if_neg h1, if_neg h2, htn]
      have := fibLoop_recSeq hcomm v0 v1 (n + 1) 0
      simp only [Nat.zero_add] at this
      rw [show recSeq v0 v1 0 = v0 from rfl, show recSeq v0 v1 1 = v1 from rfl] at this
      rw [this]
      have : 1 + (n + 1) = n + 2 := by omega
      rw [this]

/-- Claim C7: for every non-negative index `n`, `fibonacci n v0 v1` returns the
`n`-th term of the recurrence `v[i] = v[i-1] + v[i-2]` with `v[0] = v0`,
`v[1] = v1` (the code adds the accumulators as `v0 + v1`, so a commutative
addition is assumed, as the source notes); with the default seeds `0` and `1`
it reproduces the standard Fibonacci values `0,1,1,2,3,5,8,13,21,34,55` at
`n = 0..10`. -/
theorem fibonacci_matches_recurrence {α : Type} [Add α]
    (hcomm : ∀ a b : α, a + b = b + a) (v0 v1 : α) (n : Nat) :
    fibonacci (n : Int) v0 v1 = Except.ok (recSeq v0 v1 n) ∧
    (List.range 11).map (fun k => fibonacci (k : Int) (0 : Int) 1) =
      [0, 1, 1, 2, 3, 5, 8, 13, 21, 34, 55].map Except.ok := by
  refine ⟨fibonacci_ok_recSeq hcomm v0 v1 n, ?_⟩
  rfl

/-- Witness for C7 at `α = Int`, seeds `0, 1`, `n = 10`. -/
theorem fibonacci_matches_recurrence_witness :
    fibonacci (10 : Int) (0 : Int) 1 = Except.ok (recSeq 0 1 10) ∧
    (List.range 11).map (fun k => fibonacci (k : Int) (0 : Int) 1) =
      [0, 1, 1, 2, 3, 5, 8, 13, 21, 34, 55].map Except.ok :=
  fibonacci_matches_recurrence (fun a b => Int.add_comm a b) 0 1 10

/-- Claim C8: for every negative `n`, `fibonacci` fails with the
invalid-argument error and produces no result; for every non-negative `n` it
succeeds (never raises this error). -/
theorem fibonacci_negative_invalid {α : Type} [Add α] (v0 v1 : α) (n : Int) :
    (n < 0 → fibonacci n v0 v1 = Except.error "n must be non-negative") ∧
    (0 ≤ n → ∃ a, fibonacci n v0 v1 = Except.ok a) := by
  constructor
  · intro hneg
    rw [fibonacci, if_pos hneg]
  · intro hpos
    rw [fibonacci, if_neg (by omega)]
    by_cases h0 : n = 0
    · exact ⟨v0, by rw [if_pos h0]⟩
    by_cases h1 : n = 1
    · exact ⟨v1, by rw [if_neg h0, if_pos h1]⟩
    exact ⟨_, by rw [if_neg h0, if_neg h1]⟩

/-- Witness for C8 at `n = -1` (error case) and `n = 2` (success case). -/
theorem fibonacci_negative_invalid_witness :
    fibonacci (-1 : Int) (0 : Int) 1 = Except.error "n must be non-negative" ∧
    ∃ a, fibonacci (2 : Int) (0 : Int) 1 = Except.ok a :=
  ⟨(fibonacci_negative_invalid (0 : Int) 1 (-1)).1 (by norm_num),
   (fibonacci_negative_invalid (0 : Int) 1 2).2 (by norm_num)⟩

/-! ### Searching (`searching/binary_search.hpp`)

Iterators into the range `[first, last)` are embedded as indices into a list:
`first`/`last`/`mid` become the naturals `lo`/`hi`/`mid`, and the end-of-range
sentinel is the index `l.length`.  Dereferencing `*mid` is embedded as the
checked access `l[mid]?`; an out-of-bounds access makes the whole computation
return `none`, so "the code never reads outside the range" is the theorem that
the result is always `some`. -/

/-- The `while (first < last)` loop of `algorithms::searching::binary_search`:
`mid = first + (last - first) / 2`; descend right if `comp(*mid, value)`, left
if `comp(value, *mid)`, else return `mid`.  On exhaustion the C++ code returns
the narrowed iterator `last`, embedded here as `some hi`. -/
def bsearchLoop {α : Type} (comp : α → α → Bool) (l : List α) (v : α)
    (lo hi : Nat) : Option Nat :=
  if lo < hi then
    let mid := lo + (hi - lo) / 2
    match l[mid]? with
    | none => none
    | some x =>
      if comp x v then bsearchLoop comp l v (mid + 1) hi
      else if comp v x then bsearchLoop comp l v lo mid
      else some mid
  else some hi
termination_by hi - lo
decreasing_by all_goals omega

/-- Embedding of `algorithms::searching::binary_search` on the whole range. -/
def binary_search {α : Type} (comp : α → α → Bool) (l : List α) (v : α) :
    Option Nat :=
  bsearchLoop comp l v 0 l.length

/-- First loop of `equal_range` (lower bound): narrow with `comp(*mid, value)`;
returns the final `lower`. -/
def lowerLoop {α : Type} (comp : α → α → Bool) (l : List α) (v : α)
    (lo hi : Nat) : Option Nat :=
  if lo < hi then
    let mid := lo + (hi - lo) / 2
    match l[mid]? with
    | none => none
    | some x =>
      if comp x v then lowerLoop comp l v (mid + 1) hi
      else lowerLoop comp l v lo mid
  else some lo
termination_by hi - lo
decreasing_by all_goals omega

/-- Second loop of `equal_range` (upper bound): narrow with `comp(value, *mid)`;
returns the final `upper2`. -/
def upperLoop {α : Type} (comp : α → α → Bool) (l : List α) (v : α)
    (lo hi : Nat) : Option Nat :=
  if lo < hi then
    let mid := lo + (hi - lo) / 2
    match l[mid]? with
    | none => none
    | some x =>
      if comp v x then upperLoop comp l v lo mid
      else upperLoop comp l v (mid + 1) hi
  else some hi
termination_by hi - lo
decreasing_by all_goals omega

/-- Embedding of `algorithms::searching::equal_range`: two independent binary
searches over the full range, returning the pair `{lower, upper2}`. -/
def equal_range {α : Type} (comp : α → α → Bool) (l : List α) (v : α) :
    Option (Nat × Nat) :=
  match lowerLoop comp l v 0 l.length, upperLoop comp l v 0 l.length with
  | some lo, some hi => some (lo, hi)
  | _, _ => none

theorem bsearchLoop_some {α : Type} (comp : α → α → Bool) (l : List α) (v : α) :
    ∀ d lo hi, hi - lo ≤ d → lo ≤ hi → hi ≤ l.length →
      ∃ r, bsearchLoop comp l v lo hi = some r ∧ r ≤ hi := by
  intro d
  induction d with
  | zero =>
      intro lo hi hd hlohi hlen
      rw [bsearchLoop, if_neg (by omega)]
      exact ⟨hi, rfl, le_rfl⟩
  | succ d ih =>
      intro lo hi hd hlohi hlen
      by_cases hlt : lo < hi
      · have hmid : lo + (hi - lo) / 2 < l.length := by omega
        rw [bsearchLoop, if_pos hlt]
        simp only [List.getElem?_eq_getElem hmid]
        by_cases h1 : comp l[lo + (hi - lo) / 2] v
        · rw [if_pos h1]
          obtain ⟨r, hr, hrle⟩ := ih (lo + (hi - lo) / 2 + 1) hi (by omega) (by omega) hlen
          exact ⟨r, hr, hrle⟩
        · rw [if_neg h1]
          by_cases h2 : comp v l[lo + (hi - lo) / 2]
          · rw [if_pos h2]
            obtain ⟨r, hr, hrle⟩ :=
              ih lo (lo + (hi - lo) / 2) (by omega) (by omega) (by omega)
            exact ⟨r, hr, by omega⟩
          · rw [if_neg h2]
            exact ⟨_, rfl, by omega⟩
      · rw [bsearchLoop, if_neg hlt]
        exact ⟨hi, rfl, le_rfl⟩

theorem lowerLoop_some {α : Type} (comp : α → α → Bool) (l : List α) (v : α) :
    ∀ d lo hi, hi - lo ≤ d → lo ≤ hi → hi ≤ l.length →
      ∃ r, lowerLoop comp l v lo hi = some r ∧ r ≤ hi := by
  intro d
  induction d with
  | zero =>
      intro lo hi hd hlohi hlen
      rw [lowerLoop, if_neg (by omega)]
      exact ⟨lo, rfl, hlohi⟩
  | succ d ih =>
      intro lo hi hd hlohi hlen
      by_cases hlt : lo < hi
      · have hmid : lo + (hi - lo) / 2 < l.length := by omega
        rw [lowerLoop, if_pos hlt]
        simp only [List.getElem?_eq_getElem hmid]
        by_cases h1 : comp l[lo + (hi - lo) / 2] v
        · rw [if_pos h1]
          exact ih (lo + (hi - lo) / 2 + 1) hi (by omega) (by omega) hlen
        · rw [if_neg h1]
          obtain ⟨r, hr, hrle⟩ :=
            ih lo (lo + (hi - lo) / 2) (by omega) (by omega) (by omega)
          exact ⟨r, hr, by omega⟩
      · rw [lowerLoop, if_neg hlt]
        exact ⟨lo, rfl, hlohi⟩

theorem upperLoop_some {α : Type} (comp : α → α → Bool) (l : List α) (v : α) :
    ∀ d lo hi, hi - lo ≤ d → lo ≤ hi → hi ≤ l.length →
      ∃ r, upperLoop comp l v lo hi = some r ∧ r ≤ hi := by
  intro d
  induction d with
  | zero =>
      intro lo hi hd hlohi hlen
      rw [upperLoop, if_neg (by omega)]
      exact ⟨hi, rfl, le_rfl⟩
  | succ d ih =>
      intro lo hi hd hlohi hlen
      by_cases hlt : lo < hi
      · have hmid : lo + (hi - lo) / 2 < l.length := by omega
        rw [upperLoop, if_pos hlt]
        simp only [List.getElem?_eq_getElem hmid]
        by_cases h1 : comp v l[lo + (hi - lo) / 2]
        · rw [if_pos h1]
          obtain ⟨r, hr, hrle⟩ :=
            ih lo (lo + (hi - lo) / 2) (by omega) (by omega) (by omega)
          exact ⟨r, hr, by omega⟩
        · rw [if_neg h1]
          exact ih (lo + (hi - lo) / 2 + 1) hi (by omega) (by omega) hlen
      · rw [upperLoop, if_neg hlt]
        exact ⟨hi, rfl, le_rfl⟩

/-- Claim C9: for every range and comparison — sorted or not — `binary_search`
and `equal_range` terminate, never access a position outside the range (the
checked accesses never fail, so the result is `some`), and return positions
within `[first, last]` (indices at most `l.length`). -/
theorem search_total_inbounds {α : Type} (comp : α → α → Bool) (l : List α)
    (v : α) :
    (∃ r, binary_search comp l v = some r ∧ r ≤ l.length) ∧
    (∃ lo hi, equal_range comp l v = some (lo, hi) ∧
      lo ≤ l.length ∧ hi ≤ l.length) := by
  obtain ⟨r, hr, hrle⟩ :=
    bsearchLoop_some comp l v l.length 0 l.length (by omega) (by omega) le_rfl
  obtain ⟨r1, hr1, hr1le⟩ :=
    lowerLoop_some comp l v l.length 0 l.length (by omega) (by omega) le_rfl
  obtain ⟨r2, hr2, hr2le⟩ :=
    upperLoop_some comp l v l.length 0 l.length (by omega) (by omega) le_rfl
  refine ⟨⟨r, hr, hrle⟩, ⟨r1, r2, ?_, hr1le, hr2le⟩⟩
  rw [equal_range, hr1, hr2]

theorem countP_boundary {α : Type} (p : α → Bool) (l : List α)
    (hmono : ∀ i j (hi : i < l.length) (hj : j < l.length),
      i ≤ j → p l[j] = true → p l[i] = true) :
    ∀ i (h : i < l.length), (p l[i] = true ↔ i < l.countP p) := by
  intro i h
  constructor
  · intro hp
    have hlen : (l.take (i + 1)).length = i + 1 := by
      rw [List.length_take]; omega
    have hall : ∀ a ∈ l.take (i + 1), p a = true := by
      intro a ha
      obtain ⟨j, hj, hja⟩ := List.mem_iff_getElem.mp ha
      have hj1 : j < i + 1 := by rw [hlen] at hj; omega
      rw [← hja, List.getElem_take]
      exact hmono j i (by omega) h (by omega) hp
    calc i < i + 1 := by omega
      _ = (l.take (i + 1)).length := hlen.symm
      _ = (l.take (i + 1)).countP p := (List.countP_eq_length.mpr hall).symm
      _ ≤ l.countP p := (List.take_sublist _ _).countP_le p
  · intro hcount
    by_contra hp
    have hdrop : l.countP p ≤ i := by
      have hz : (l.drop i).countP p = 0 := by
        rw [List.countP_eq_zero]
        intro a ha hpa
        obtain ⟨j, hj, hja⟩ := List.mem_iff_getElem.mp ha
        have hj1 : i + j < l.length := by
          rw [List.length_drop] at hj; omega
        rw [← hja, List.getElem_drop] at hpa
        exact hp (hmono i (i + j) h hj1 (by omega) hpa)
      calc l.countP p = (l.take i ++ l.drop i).countP p := by
            rw [List.take_append_drop]
        _ = (l.take i).countP p + (l.drop i).countP p := List.countP_append ..
        _ = (l.take i).countP p := by rw [hz, Nat.add_zero]
        _ ≤ (l.take i).length := List.countP_le_length p
        _ ≤ i := by rw [List.length_take]; omega
    omega

theorem lowerLoop_boundary {α : Type} (comp : α → α → Bool) (l : List α)
    (v : α) (k : Nat)
    (hb : ∀ i (h : i < l.length), (comp l[i] v = true ↔ i < k)) :
    ∀ d lo hi, hi - lo ≤ d → lo ≤ k → k ≤ hi → hi ≤ l.length →
      lowerLoop comp l v lo hi = some k := by
  intro d
  induction d with
  | zero =>
      intro lo hi hd h1 h2 h3
      rw [lowerLoop, if_neg (by omega)]
      congr 1
      omega
  | succ d ih =>
      intro lo hi hd h1 h2 h3
      by_cases hlt : lo < hi
      · have hmid : lo + (hi - lo) / 2 < l.length := by omega
        rw [lowerLoop, if_pos hlt]
        simp only [List.getElem?_eq_getElem hmid]
        by_cases hc : comp l[lo + (hi - lo) / 2] v
        · rw [if_pos hc]
          have hmk : lo + (hi - lo) / 2 < k := (hb _ hmid).mp hc
          exact ih (lo + (hi - lo) / 2 + 1) hi (by omega) (by omega) h2 h3
        · rw [if_neg hc]
          have hmk : ¬ (lo + (hi - lo) / 2 < k) := fun hlt2 => hc ((hb _ hmid).mpr hlt2)
          exact ih lo (lo + (hi - lo) / 2) (by omega) h1 (by omega) (by omega)
      · rw [lowerLoop, if_neg hlt]
        congr 1
        omega

theorem upperLoop_boundary {α : Type} (comp : α → α → Bool) (l : List α)
    (v : α) (k : Nat)
    (hb : ∀ i (h : i < l.length), (comp v l[i] = false ↔ i < k)) :
    ∀ d lo hi, hi - lo ≤ d → lo ≤ k → k ≤ hi → hi ≤ l.length →
      upperLoop comp l v lo hi = some k := by
  intro d
  induction d with
  | zero =>
      intro lo hi hd h1 h2 h3
      rw [upperLoop, if_neg (by omega)]
      congr 1
      omega
  | succ d ih =>
      intro lo hi hd h1 h2 h3
      by_cases hlt : lo < hi
      · have hmid : lo + (hi - lo) / 2 < l.length := by omega
        rw [upperLoop, if_pos hlt]
        simp only [List.getElem?_eq_getElem hmid]
        by_cases hc : comp v l[lo + (hi - lo) / 2]
        · rw [if_pos hc]
          have hmk : ¬ (lo + (hi - lo) / 2 < k) := by
            intro hlt2
            rw [(hb _ hmid).mpr hlt2] at hc
            exact Bool.false_ne_true hc
          exact ih lo (lo + (hi - lo) / 2) (by omega) h1 (by omega) (by omega)
        · rw [if_neg hc]
          have hmk : lo + (hi - lo) / 2 < k :=
            (hb _ hmid).mp (Bool.eq_false_iff.mpr hc)
          exact ih (lo + (hi - lo) / 2 + 1) hi (by omega) (by omega) h2 h3
      · rw [upperLoop, if_neg hlt]
        congr 1
        omega

theorem countP_split {α : Type} (p q e : α → Bool) (l : List α)
    (hq : ∀ x ∈ l, q x = (p x || e x)) (hd : ∀ x ∈ l, (p x && e x) = false) :
    l.countP q = l.countP p + l.countP e := by
  induction l with
  | nil => rfl
  | cons a t ih =>
      have hqa := hq a (by simp)
      have hda := hd a (by simp)
      rw [List.countP_cons, List.countP_cons, List.countP_cons,
        ih (fun x hx => hq x (by simp [hx])) (fun x hx => hd x (by simp [hx]))]
      cases hpa : p a <;> cases hea : e a <;>
        rw [hpa, hea] at hqa hda <;> simp [hqa] at hda ⊢ <;> omega

/-- Claim C4: for every range sorted under a strict-total-order comparison,
`equal_range` returns a pair `(lo, hi)` delimiting exactly the contiguous block
of elements equal to the target: the width `hi - lo` equals the number of
elements comparing equal to the target, position `i` lies in `[lo, hi)` exactly
when the element there is the target, and when the target is absent the two
bounds coincide and mark a position where inserting the target keeps the range
sorted. -/
theorem equal_range_sorted_correct {α : Type} (comp : α → α → Bool)
    (l : List α) (v : α)
    (hirr : ∀ a, comp a a = false)
    (htrans : ∀ a b c, comp a b = true → comp b c = true → comp a c = true)
    (hconn : ∀ a b : α, a ≠ b → comp a b = true ∨ comp b a = true)
    (hsort : l.Pairwise fun a b => comp b a = false) :
    ∃ lo hi, equal_range comp l v = some (lo, hi) ∧ lo ≤ hi ∧ hi ≤ l.length ∧
      hi - lo = l.countP (fun x => !comp x v && !comp v x) ∧
      (∀ i (h : i < l.length), (lo ≤ i ∧ i < hi) ↔ l[i] = v) ∧
      (v ∉ l → lo = hi ∧
        (l.take lo ++ v :: l.drop lo).Pairwise fun a b => comp b a = false) := by
  have hpw := List.pairwise_iff_getElem.mp hsort
  -- the two counts computed by the two loops
  set k1 := l.countP (fun x => comp x v) with hk1def
  set k2 := l.countP (fun x => !comp v x) with hk2def
  have hk1len : k1 ≤ l.length := List.countP_le_length _
  have hk2len : k2 ≤ l.length := List.countP_le_length _
  -- elements strictly below the target form a prefix
  have hbp : ∀ i (h : i < l.length), (comp l[i] v = true ↔ i < k1) := by
    have hm : ∀ i j (hi : i < l.length) (hj : j < l.length),
        i ≤ j → comp l[j] v = true → comp l[i] v = true := ?_
    · intro i h
      rw [hk1def]
      exact countP_boundary (fun x => comp x v) l hm i h
    intro i j hi hj hij hpj
    rcases Nat.lt_or_ge i j with hlt | hge
    · by_cases heq : l[i] = l[j]
      · rw [heq]; exact hpj
      · rcases hconn _ _ heq with hij2 | hji2
        · exact htrans _ _ _ hij2 hpj
        · rw [hpw i j hi hj hlt] at hji2
          exact absurd hji2 (by simp)
    · have hieq : i = j := by omega
      subst hieq
      exact hpj
  have hbq : ∀ i (h : i < l.length), ((!comp v l[i]) = true ↔ i < k2) := by
    have hm : ∀ i j (hi : i < l.length) (hj : j < l.length),
        i ≤ j → (!comp v l[j]) = true → (!comp v l[i]) = true := ?_
    · intro i h
      rw [hk2def]
      exact countP_boundary (fun x => !comp v x) l hm i h
    intro i j hi hj hij hpj
    simp only [Bool.not_eq_true'] at hpj ⊢
    rcases Nat.lt_or_ge i j with hlt | hge
    · by_cases heq : l[i] = l[j]
      · rw [heq]; exact hpj
      · rcases hconn _ _ heq with hij2 | hji2
        · by_contra hvi
          rw [htrans v l[i] l[j] (Bool.ne_false_iff.mp hvi) hij2] at hpj
          exact Bool.false_ne_true hpj.symm
        · rw [hpw i j hi hj hlt] at hji2
          exact absurd hji2 (by simp)
    · have hieq : i = j := by omega
      subst hieq
      exact hpj
  -- counting: the at-most-target count splits into below plus equal
  have hsplit : k2 = k1 + l.countP (fun x => !comp x v && !comp v x) := by
    refine countP_split _ _ _ l ?_ ?_
    · intro x _
      by_cases hxv : comp x v
      · by_cases hvx : comp v x
        · exact absurd (htrans x v x hxv hvx) (by simp [hirr x])
        · simp [hxv, hvx]
      · by_cases hvx : comp v x <;>
          simp [Bool.eq_false_iff.mpr hxv, hvx]
    · intro x _
      by_cases hxv : comp x v <;> simp [hxv]
  have hk12 : k1 ≤ k2 := by omega
  -- the two loops land exactly on the two counts
  have hlow : lowerLoop comp l v 0 l.length = some k1 :=
    lowerLoop_boundary comp l v k1 hbp l.length 0 l.length
      (by omega) (by omega) hk1len le_rfl
  have hup : upperLoop comp l v 0 l.length = some k2 := by
    refine upperLoop_boundary comp l v k2 ?_ l.length 0 l.length
      (by omega) (by omega) hk2len le_rfl
    intro i h
    rw [← hbq i h]
    simp [Bool.not_eq_true']
  refine ⟨k1, k2, ?_, hk12, hk2len, by omega, ?_, ?_⟩
  · rw [equal_range, hlow, hup]
  · -- positions inside [k1, k2) hold exactly the target
    intro i h
    constructor
    · rintro ⟨h1, h2⟩
      have hxv : comp l[i] v = false := by
        rw [Bool.eq_false_iff]
        intro hc
        exact absurd ((hbp i h).mp hc) (by omega)
      have hvx : comp v l[i] = false := by
        have := (hbq i h).mpr h2
        simpa [Bool.not_eq_true'] using this
      by_contra hne
      rcases hconn _ _ hne with hc | hc
      · rw [hxv] at hc; exact Bool.false_ne_true hc
      · rw [hvx] at hc; exact Bool.false_ne_true hc
    · intro heq
      constructor
      · by_contra hlt
        have : comp l[i] v = true := (hbp i h).mpr (by omega)
        rw [heq, hirr v] at this
        exact Bool.false_ne_true this
      · refine (hbq i h).mp ?_
        rw [heq, hirr v]
        rfl
  · -- absent target: empty interval at a sorted insertion point
    intro hv
    have hk12eq : k1 = k2 := by
      by_contra hne
      have hlt : k1 < k2 := by omega
      have hk1l : k1 < l.length := by omega
      have : l[k1] = v := by
        have hbp1 : ¬ (comp l[k1] v = true) := by
          rw [hbp k1 hk1l]; omega
        have hbq1 : (!comp v l[k1]) = true := (hbq k1 hk1l).mpr hlt
        simp only [Bool.not_eq_true'] at hbq1
        by_contra hne2
        rcases hconn _ _ hne2 with hc | hc
        · exact hbp1 hc
        · rw [hbq1] at hc; exact Bool.false_ne_true hc
      exact hv (this ▸ List.getElem_mem hk1l)
    refine ⟨hk12eq, ?_⟩
    rw [List.pairwise_append]
    refine ⟨List.Pairwise.sublist (List.take_sublist _ _) hsort, ?_, ?_⟩
    · rw [List.pairwise_cons]
      constructor
      · intro b hb
        obtain ⟨j, hj, hjb⟩ := List.mem_iff_getElem.mp hb
        have hjlen : k1 + j < l.length := by
          rw [List.length_drop] at hj; omega
        rw [← hjb, List.getElem_drop]
        rw [Bool.eq_false_iff]
        intro hc
        exact absurd ((hbp _ hjlen).mp hc) (by omega)
      · exact List.Pairwise.sublist (List.drop_sublist _ _) hsort
    · intro a ha b hb
      obtain ⟨i, hi, hia⟩ := List.mem_iff_getElem.mp ha
      have hik1 : i < k1 := by
        rw [List.length_take] at hi; omega
      have hilen : i < l.length := by omega
      have hia2 : l[i] = a := by rw [← hia, List.getElem_take]
      rcases List.mem_cons.mp hb with hbv | hbd
      · -- b is the inserted target
        rw [hbv, ← hia2, Bool.eq_false_iff]
        intro hc
        have hpa : comp l[i] v = true := (hbp i hilen).mpr hik1
        exact absurd (htrans _ _ _ hpa hc) (by simp [hirr])
      · obtain ⟨j, hj, hjb⟩ := List.mem_iff_getElem.mp hbd
        have hjlen : k1 + j < l.length := by
          rw [List.length_drop] at hj; omega
        have hjb2 : l[k1 + j] = b := by rw [← hjb, List.getElem_drop]
        rw [← hia2, ← hjb2]
        exact hpw i (k1 + j) hilen hjlen (by omega)

/-- Witness for C4: `[1,3,5,5,5,7,9]` with target `5` under `<` on `Int`. -/
theorem equal_range_sorted_correct_witness :
    ∃ lo hi,
      equal_range (fun a b : Int => decide (a < b)) [1, 3, 5, 5, 5, 7, 9] 5 =
        some (lo, hi) ∧
      lo ≤ hi ∧ hi ≤ ([1, 3, 5, 5, 5, 7, 9] : List Int).length ∧
      hi - lo = ([1, 3, 5, 5, 5, 7, 9] : List Int).countP
        (fun x => !decide (x < 5) && !decide ((5 : Int) < x)) ∧
      (∀ i (h : i < ([1, 3, 5, 5, 5, 7, 9] : List Int).length),
        (lo ≤ i ∧ i < hi) ↔ ([1, 3, 5, 5, 5, 7, 9] : List Int)[i] = 5) ∧
      ((5 : Int) ∉ ([1, 3, 5, 5, 5, 7, 9] : List Int) → lo = hi ∧
        (([1, 3, 5, 5, 5, 7, 9] : List Int).take lo ++ 5 ::
            ([1, 3, 5, 5, 5, 7, 9] : List Int).drop lo).Pairwise
          fun a b => decide (b < a) = false) :=
  equal_range_sorted_correct (fun a b : Int => decide (a < b))
    [1, 3, 5, 5, 5, 7, 9] 5
    (fun a => by simp)
    (fun a b c hab hbc => by
      simp only [decide_eq_true_eq] at hab hbc ⊢; omega)
    (fun a b hne => by
      simp only [decide_eq_true_eq]
      rcases lt_or_gt_of_ne hne with h | h
      · exact Or.inl h
      · exact Or.inr h)
    (by decide)

/-- Claim C3 (refuted by the code): on the sorted range `[1, 3, 5]` the target
`4` is absent, yet `binary_search` returns position `2` — an interior position
holding `5` — instead of the end-of-range sentinel `3`.  The loop narrows the
`last` iterator and then returns the narrowed value, so an absent target need
not yield `last`; this contradicts the routine's own documented return
contract ("or last if not found"). -/
theorem binary_search_absent_not_sentinel :
    binary_search (fun a b : Int => decide (a < b)) [1, 3, 5] 4 = some 2 ∧
    (2 : Nat) ≠ ([1, 3, 5] : List Int).length ∧
    ([1, 3, 5] : List Int)[2]? = some 5 ∧ (4 : Int) ∉ ([1, 3, 5] : List Int) := by
  refine ⟨?_, by decide, by decide, by decide⟩
  simp [binary_search, bsearchLoop]

/-! ### Sorting (`sorting/bubble_sort.hpp`, `sorting/merge_sort.hpp`)

The mutable range `[first, last)` is embedded as a list.  Throughout,
"`x` is not after `y`" under a strict comparison `comp` is the relation
`comp y x = false` (the element later in the list never compares less than an
earlier one, i.e. the list is non-decreasing). -/

/-- Embedding of `algorithms::sorting::detail::merge`: repeatedly move the
front of whichever half wins `comp(*left, *right)`; on a tie (`comp` false both
ways) the right half's front is taken, because the code's single test
`comp(*left, *right)` is false then. -/
def merge {α : Type} (comp : α → α → Bool) : List α → List α → List α
  | [], r => r
  | l, [] => l
  | a :: l, b :: r =>
      if comp a b then a :: merge comp l (b :: r)
      else b :: merge comp (a :: l) r
termination_by l r => l.length + r.length

/-- Embedding of `algorithms::sorting::merge_sort`: split at `distance / 2`,
sort the halves, merge. -/
def merge_sort {α : Type} (comp : α → α → Bool) (l : List α) : List α :=
  if l.length ≤ 1 then l
  else
    merge comp (merge_sort comp (l.take (l.length / 2)))
      (merge_sort comp (l.drop (l.length / 2)))
termination_by l.length
decreasing_by
  · rw [List.length_take]; omega
  · rw [List.length_drop]; omega

/-- One inner pass of `bubble_sort` with `n` remaining adjacent comparisons
(`next != end` bounds the walk): swap when `comp(*next, *current)`, carrying
the larger element rightward; returns the updated list and the `swapped`
flag. -/
def bubblePass {α : Type} (comp : α → α → Bool) : List α → Nat → List α × Bool
  | a :: b :: rest, n + 1 =>
      if comp b a then
        (b :: (bubblePass comp (a :: rest) n).1, true)
      else
        let r := bubblePass comp (b :: rest) n
        (a :: r.1, r.2)
  | l, _ => (l, false)

/-- The `do ... while (swapped && end != first)` loop of `bubble_sort`: the
argument `m + 1` is the current `end` index, so a pass makes `m`
comparisons, then `end` is decremented. -/
def bubbleLoop {α : Type} (comp : α → α → Bool) : Nat → List α → List α
  | 0, l => l
  | m + 1, l =>
      let r := bubblePass comp l m
      if r.2 then (if m = 0 then r.1 else bubbleLoop comp m r.1) else r.1

/-- Embedding of `algorithms::sorting::bubble_sort`. -/
def bubble_sort {α : Type} (comp : α → α → Bool) (l : List α) : List α :=
  if l.isEmpty then l else bubbleLoop comp l.length l

theorem comp_asym {α : Type} {comp : α → α → Bool}
    (hirr : ∀ a, comp a a = false)
    (htrans : ∀ a b c, comp a b = true → comp b c = true → comp a c = true)
    {a b : α} (h : comp a b = true) : comp b a = false := by
  by_contra hba
  have haa := htrans a b a h (Bool.ne_false_iff.mp hba)
  rw [hirr a] at haa
  exact Bool.false_ne_true haa

theorem le_trans_of {α : Type} {comp : α → α → Bool}
    (htrans : ∀ a b c, comp a b = true → comp b c = true → comp a c = true)
    (hconn : ∀ a b : α, a ≠ b → comp a b = true ∨ comp b a = true)
    {a b c : α} (hba : comp b a = false) (hcb : comp c b = false) :
    comp c a = false := by
  by_contra hca
  have hca2 := Bool.ne_false_iff.mp hca
  by_cases heq : b = a
  · rw [heq] at hcb
    rw [hcb] at hca2
    exact Bool.false_ne_true hca2
  · rcases hconn b a heq with hba2 | hab
    · rw [hba] at hba2
      exact Bool.false_ne_true hba2
    · have := htrans c a b hca2 hab
      rw [hcb] at this
      exact Bool.false_ne_true this

theorem merge_perm {α : Type} (comp : α → α → Bool) :
    ∀ l r : List α, (merge comp l r).Perm (l ++ r) := by
  intro l
  induction l with
  | nil => intro r; simp [merge]
  | cons a l ihl =>
      intro r
      induction r with
      | nil => simp [merge]
      | cons b r ihr =>
          rw [merge]
          by_cases h : comp a b
          · rw [if_pos h]
            exact (ihl (b :: r)).cons a
          · rw [if_neg h]
            exact (ihr.cons b).trans List.perm_middle.symm

theorem merge_pairwise {α : Type} {comp : α → α → Bool}
    (hirr : ∀ a, comp a a = false)
    (htrans : ∀ a b c, comp a b = true → comp b c = true → comp a c = true)
    (hconn : ∀ a b : α, a ≠ b → comp a b = true ∨ comp b a = true) :
    ∀ l r : List α, (l.Pairwise fun a b => comp b a = false) →
      (r.Pairwise fun a b => comp b a = false) →
      (merge comp l r).Pairwise fun a b => comp b a = false := by
  intro l
  induction l with
  | nil => intro r _ hr; simpa [merge] using hr
  | cons a l ihl =>
      intro r
      induction r with
      | nil => intro hl _; simpa [merge] using hl
      | cons b r ihr =>
          intro hl hr
          have hl2 := List.pairwise_cons.mp hl
          have hr2 := List.pairwise_cons.mp hr
          rw [merge]
          by_cases h : comp a b
          · rw [if_pos h, List.pairwise_cons]
            constructor
            · intro x hx
              have hx2 : x ∈ l ++ (b :: r) := (merge_perm comp l (b :: r)).subset hx
              rcases List.mem_append.mp hx2 with hxl | hxbr
              · exact hl2.1 x hxl
              · rcases List.mem_cons.mp hxbr with rfl | hxr
                · exact comp_asym hirr htrans h
                · exact le_trans_of htrans hconn (comp_asym hirr htrans h)
                    (hr2.1 x hxr)
            · exact ihl (b :: r) hl2.2 hr
          · rw [if_neg h, List.pairwise_cons]
            constructor
            · intro x hx
              have hx2 : x ∈ (a :: l) ++ r := (merge_perm comp (a :: l) r).subset hx
              rcases List.mem_append.mp hx2 with hxal | hxr
              · rcases List.mem_cons.mp hxal with rfl | hxl
                · exact Bool.eq_false_iff.mpr h
                · exact le_trans_of htrans hconn (Bool.eq_false_iff.mpr h)
                    (hl2.1 x hxl)
              · exact hr2.1 x hxr
            · exact ihr hl hr2.2

theorem short_pairwise {α : Type} {R : α → α → Prop} {l : List α}
    (h : l.length ≤ 1) : l.Pairwise R := by
  match l with
  | [] => exact List.Pairwise.nil
  | [a] => simp
  | a :: b :: t => simp at h

theorem merge_sort_perm {α : Type} (comp : α → α → Bool) (l : List α) :
    (merge_sort comp l).Perm l := by
  induction l using merge_sort.induct comp with
  | case1 l h => rw [merge_sort, if_pos h]
  | case2 l h ih1 ih2 =>
      rw [merge_sort, if_neg h]
      refine (merge_perm comp _ _).trans ?_
      refine (ih1.append ih2).trans ?_
      rw [List.take_append_drop]

theorem merge_sort_pairwise {α : Type} {comp : α → α → Bool}
    (hirr : ∀ a, comp a a = false)
    (htrans : ∀ a b c, comp a b = true → comp b c = true → comp a c = true)
    (hconn : ∀ a b : α, a ≠ b → comp a b = true ∨ comp b a = true)
    (l : List α) :
    (merge_sort comp l).Pairwise fun a b => comp b a = false := by
  induction l using merge_sort.induct comp with
  | case1 l h => rw [merge_sort, if_pos h]; exact short_pairwise h
  | case2 l h ih1 ih2 =>
      rw [merge_sort, if_neg h]
      exact merge_pairwise hirr htrans hconn _ _ ih1 ih2

/-- Claim C1 (refuted by the code): merge sort is NOT stable.  On the
two-element input `[(0, A), (0, B)]`, whose elements compare equal on the key
(first component), `merge_sort` returns `[(0, B), (0, A)]`: the merge step
tests only `comp(*left, *right)`, which is false on a tie, so ties are taken
from the RIGHT half first and the original relative order of equal elements is
reversed — contradicting the spec's "ties from the left half first" and the
header's own "Stable: Yes" documentation. -/
theorem merge_sort_tie_from_right :
    merge_sort (fun a b : Nat × Nat => decide (a.1 < b.1)) [(0, 0), (0, 1)] =
      [(0, 1), (0, 0)] ∧
    [(0, 1), (0, 0)] ≠ [(0, 0), (0, 1)] := by
  constructor
  · simp [merge_sort, merge]
  · decide

theorem bubblePass_noswap {α : Type} (comp : α → α → Bool) :
    ∀ n (l : List α), (bubblePass comp l n).2 = false →
      (bubblePass comp l n).1 = l ∧
      (l.take (n + 1)).Chain' fun a b => comp b a = false := by
  intro n
  induction n with
  | zero =>
      intro l hf
      match l with
      | [] => exact ⟨rfl, by simp⟩
      | [a] => exact ⟨rfl, by simp⟩
      | a :: b :: rest => exact ⟨rfl, by simp⟩
  | succ n ih =>
      intro l hf
      match l with
      | [] => exact ⟨rfl, by simp⟩
      | [a] => exact ⟨rfl, by simp⟩
      | a :: b :: rest =>
          rw [bubblePass] at hf ⊢
          by_cases h : comp b a
          · rw [if_pos h] at hf
            exact absurd hf (by simp)
          · rw [if_neg h] at hf ⊢
            simp only at hf ⊢
            obtain ⟨h1, h2⟩ := ih (b :: rest) hf
            refine ⟨by rw [h1], ?_⟩
            rw [List.take_succ_cons, List.take_succ_cons]
            rw [List.take_succ_cons] at h2
            exact List.chain'_cons.mpr ⟨Bool.eq_false_iff.mpr h, h2⟩

theorem bubblePass_spec {α : Type} {comp : α → α → Bool}
    (hirr : ∀ a, comp a a = false)
    (htrans : ∀ a b c, comp a b = true → comp b c = true → comp a c = true)
    (hconn : ∀ a b : α, a ≠ b → comp a b = true ∨ comp b a = true) :
    ∀ n (w s : List α), w.length = n + 1 →
      ∃ w3 mx flag, bubblePass comp (w ++ s) n = (w3 ++ mx :: s, flag) ∧
        (w3 ++ [mx]).Perm w ∧ w3.length = n ∧ ∀ x ∈ w3, comp mx x = false := by
  intro n
  induction n with
  | zero =>
      intro w s hw
      obtain ⟨x, rfl⟩ := List.length_eq_one.mp hw
      refine ⟨[], x, false, ?_, List.Perm.refl _, rfl, by simp⟩
      match s with
      | [] => rfl
      | c :: s2 => rfl
  | succ n ih =>
      intro w s hw
      match w with
      | a :: b :: t =>
          have hw2 : (b :: t).length = n + 1 := by simpa using hw
          have hw1 : (a :: t).length = n + 1 := by simpa using hw
          by_cases h : comp b a
          · obtain ⟨w3, mx, flag, heq, hperm, hlen, hbd⟩ := ih (a :: t) s hw1
            simp only [List.cons_append] at heq
            refine ⟨b :: w3, mx, true, ?_, ?_, by simp [hlen], ?_⟩
            · simp only [List.cons_append, bubblePass, if_pos h, List.append_eq, heq]
            · refine (List.Perm.cons b hperm).trans ?_
              exact List.Perm.swap a b t
            · intro x hx
              rcases List.mem_cons.mp hx with rfl | hxw3
              · have ha : a ∈ w3 ++ [mx] := hperm.symm.subset (by simp)
                rcases List.mem_append.mp ha with haw | hamx
                · exact le_trans_of htrans hconn (comp_asym hirr htrans h)
                    (hbd a haw)
                · have hamx2 : a = mx := by simpa using hamx
                  rw [← hamx2]
                  exact comp_asym hirr htrans h
              · exact hbd x hxw3
          · obtain ⟨w3, mx, flag, heq, hperm, hlen, hbd⟩ := ih (b :: t) s hw2
            simp only [List.cons_append] at heq
            refine ⟨a :: w3, mx, flag, ?_, ?_, by simp [hlen], ?_⟩
            · simp only [List.cons_append, bubblePass, if_neg h, List.append_eq, heq]
            · exact List.Perm.cons a hperm
            · intro x hx
              rcases List.mem_cons.mp hx with rfl | hxw3
              · have hb : b ∈ w3 ++ [mx] := hperm.symm.subset (by simp)
                rcases List.mem_append.mp hb with hbw | hbmx
                · exact le_trans_of htrans hconn (Bool.eq_false_iff.mpr h)
                    (hbd b hbw)
                · have hbmx2 : b = mx := by simpa using hbmx
                  rw [← hbmx2]
                  exact Bool.eq_false_iff.mpr h
              · exact hbd x hxw3

theorem bubbleLoop_sorts {α : Type} {comp : α → α → Bool}
    (hirr : ∀ a, comp a a = false)
    (htrans : ∀ a b c, comp a b = true → comp b c = true → comp a c = true)
    (hconn : ∀ a b : α, a ≠ b → comp a b = true ∨ comp b a = true) :
    ∀ m (l : List α), m ≤ l.length →
      (∀ x ∈ l.take m, ∀ y ∈ l.drop m, comp y x = false) →
      ((l.drop m).Pairwise fun a b => comp b a = false) →
      (bubbleLoop comp m l).Perm l ∧
        ((bubbleLoop comp m l).Pairwise fun a b => comp b a = false) := by
  intro m
  induction m with
  | zero =>
      intro l hm hcross hsorted
      exact ⟨List.Perm.refl l, by simpa using hsorted⟩
  | succ m ih =>
      intro l hm hcross hsorted
      have hwlen : (l.take (m + 1)).length = m + 1 := by
        rw [List.length_take]; omega
      obtain ⟨w3, mx, flag, heq, hperm, hw3len, hbd⟩ :=
        bubblePass_spec hirr htrans hconn m (l.take (m + 1)) (l.drop (m + 1))
          hwlen
      rw [List.take_append_drop] at heq
      have hassoc : w3 ++ mx :: l.drop (m + 1) = (w3 ++ [mx]) ++ l.drop (m + 1) := by
        simp
      have hl2perm : (w3 ++ mx :: l.drop (m + 1)).Perm l := by
        rw [hassoc]
        refine (hperm.append_right _).trans ?_
        rw [List.take_append_drop]
      have hmxmem : mx ∈ l.take (m + 1) := hperm.subset (by simp)
      have hw3sub : ∀ x ∈ w3, x ∈ l.take (m + 1) := fun x hx =>
        hperm.subset (by simp [hx])
      have htake2 : (w3 ++ mx :: l.drop (m + 1)).take m = w3 := by
        rw [← hw3len, List.take_left]
      have hdrop2 : (w3 ++ mx :: l.drop (m + 1)).drop m = mx :: l.drop (m + 1) := by
        rw [← hw3len, List.drop_left]
      have hsorted2 : (mx :: l.drop (m + 1)).Pairwise
          fun a b => comp b a = false := by
        rw [List.pairwise_cons]
        exact ⟨fun y hy => hcross mx hmxmem y hy, hsorted⟩
      rw [bubbleLoop]
      simp only [heq]
      by_cases hflag : flag
      · rw [if_pos hflag]
        by_cases hm0 : m = 0
        · rw [if_pos hm0]
          subst hm0
          have hw3nil : w3 = [] := List.length_eq_zero.mp hw3len
          subst hw3nil
          exact ⟨hl2perm, by simpa using hsorted2⟩
        · rw [if_neg hm0]
          have hlen2 : m ≤ (w3 ++ mx :: l.drop (m + 1)).length := by
            have := hl2perm.length_eq
            omega
          have hcross2 : ∀ x ∈ (w3 ++ mx :: l.drop (m + 1)).take m,
              ∀ y ∈ (w3 ++ mx :: l.drop (m + 1)).drop m, comp y x = false := by
            rw [htake2, hdrop2]
            intro x hx y hy
            rcases List.mem_cons.mp hy with rfl | hys
            · exact hbd x hx
            · exact hcross x (hw3sub x hx) y hys
          have hsorted3 : ((w3 ++ mx :: l.drop (m + 1)).drop m).Pairwise
              fun a b => comp b a = false := by
            rw [hdrop2]; exact hsorted2
          obtain ⟨hp, hs⟩ := ih (w3 ++ mx :: l.drop (m + 1)) hlen2 hcross2 hsorted3
          exact ⟨hp.trans hl2perm, hs⟩
      · rw [if_neg hflag]
        have hfl : (bubblePass comp l m).2 = false := by
          rw [heq]
          simpa using hflag
        obtain ⟨hid, hchain⟩ := bubblePass_noswap comp m l hfl
        rw [heq] at hid
        simp only at hid
        rw [hid]
        refine ⟨List.Perm.refl l, ?_⟩
        haveI : IsTrans α (fun a b => comp b a = false) :=
          ⟨fun a b c h1 h2 => le_trans_of htrans hconn h1 h2⟩
        have hpwtake : (l.take (m + 1)).Pairwise fun a b => comp b a = false :=
          List.chain'_iff_pairwise.mp hchain
        have := List.pairwise_append.mpr ⟨hpwtake, hsorted, hcross⟩
        rwa [List.take_append_drop] at this

theorem bubble_sort_perm_pairwise {α : Type} {comp : α → α → Bool}
    (hirr : ∀ a, comp a a = false)
    (htrans : ∀ a b c, comp a b = true → comp b c = true → comp a c = true)
    (hconn : ∀ a b : α, a ≠ b → comp a b = true ∨ comp b a = true)
    (l : List α) :
    (bubble_sort comp l).Perm l ∧
      ((bubble_sort comp l).Pairwise fun a b => comp b a = false) := by
  rw [bubble_sort]
  by_cases hemp : l.isEmpty
  · rw [if_pos hemp]
    have : l = [] := List.isEmpty_iff.mp hemp
    subst this
    exact ⟨List.Perm.refl _, List.Pairwise.nil⟩
  · rw [if_neg hemp]
    exact bubbleLoop_sorts hirr htrans hconn l.length l le_rfl
      (by simp) (by simp)

theorem sorted_unique {α : Type} {comp : α → α → Bool}
    (hconn : ∀ a b : α, a ≠ b → comp a b = true ∨ comp b a = true)
    {l1 l2 : List α} (hp : l1.Perm l2)
    (h1 : l1.Pairwise fun a b => comp b a = false)
    (h2 : l2.Pairwise fun a b => comp b a = false) : l1 = l2 := by
  haveI : IsAntisymm α (fun a b => comp b a = false) := by
    refine ⟨fun a b hab hba => ?_⟩
    by_contra hne
    rcases hconn a b hne with h | h
    · rw [hba] at h
      exact Bool.false_ne_true h
    · rw [hab] at h
      exact Bool.false_ne_true h
  exact List.eq_of_perm_of_sorted hp h1 h2

/-- Claim C2: for every sequence and every (strict) total-order comparison,
`bubble_sort` and `merge_sort` each produce a permutation of the input that is
non-decreasing under the comparison (no later element compares less than an
earlier one), and applying the same sort again to the sorted result leaves it
unchanged (idempotence). -/
theorem sorts_perm_sorted_idempotent {α : Type} (comp : α → α → Bool)
    (hirr : ∀ a, comp a a = false)
    (htrans : ∀ a b c, comp a b = true → comp b c = true → comp a c = true)
    (hconn : ∀ a b : α, a ≠ b → comp a b = true ∨ comp b a = true)
    (l : List α) :
    (bubble_sort comp l).Perm l ∧
    ((bubble_sort comp l).Pairwise fun a b => comp b a = false) ∧
    (merge_sort comp l).Perm l ∧
    ((merge_sort comp l).Pairwise fun a b => comp b a = false) ∧
    bubble_sort comp (bubble_sort comp l) = bubble_sort comp l ∧
    merge_sort comp (merge_sort comp l) = merge_sort comp l := by
  obtain ⟨hbp, hbs⟩ := bubble_sort_perm_pairwise hirr htrans hconn l
  obtain ⟨hbp2, hbs2⟩ :=
    bubble_sort_perm_pairwise hirr htrans hconn (bubble_sort comp l)
  have hmp := merge_sort_perm comp l
  have hms := merge_sort_pairwise hirr htrans hconn l
  have hmp2 := merge_sort_perm comp (merge_sort comp l)
  have hms2 := merge_sort_pairwise hirr htrans hconn (merge_sort comp l)
  exact ⟨hbp, hbs, hmp, hms,
    sorted_unique hconn hbp2 hbs2 hbs,
    sorted_unique hconn hmp2 hms2 hms⟩

/-- Witness for C2 at the test vector `[5, 2, 9, 1, 5, 6]` under `<` on
`Int`. -/
theorem sorts_perm_sorted_idempotent_witness :
    (bubble_sort (fun a b : Int => decide (a < b)) [5, 2, 9, 1, 5, 6]).Perm
      [5, 2, 9, 1, 5, 6] ∧
    ((bubble_sort (fun a b : Int => decide (a < b))
      [5, 2, 9, 1, 5, 6]).Pairwise fun a b => decide (b < a) = false) ∧
    (merge_sort (fun a b : Int => decide (a < b)) [5, 2, 9, 1, 5, 6]).Perm
      [5, 2, 9, 1, 5, 6] ∧
    ((merge_sort (fun a b : Int => decide (a < b))
      [5, 2, 9, 1, 5, 6]).Pairwise fun a b => decide (b < a) = false) ∧
    bubble_sort (fun a b : Int => decide (a < b))
        (bubble_sort (fun a b : Int => decide (a < b)) [5, 2, 9, 1, 5, 6]) =
      bubble_sort (fun a b : Int => decide (a < b)) [5, 2, 9, 1, 5, 6] ∧
    merge_sort (fun a b : Int => decide (a < b))
        (merge_sort (fun a b : Int => decide (a < b)) [5, 2, 9, 1, 5, 6]) =
      merge_sort (fun a b : Int => decide (a < b)) [5, 2, 9, 1, 5, 6] :=
  sorts_perm_sorted_idempotent (fun a b : Int => decide (a < b))
    (fun a => by simp)
    (fun a b c hab hbc => by
      simp only [decide_eq_true_eq] at hab hbc ⊢; omega)
    (fun a b hne => by
      simp only [decide_eq_true_eq]
      rcases lt_or_gt_of_ne hne with h | h
      · exact Or.inl h
      · exact Or.inr h)
    [5, 2, 9, 1, 5, 6]

/-! ### Graph traversal (`graph/breadth_first_search.hpp`,
`graph/depth_first_search.hpp`)

The `Graph` concept requires `get_all_nodes` and `get_neighbors`, both finite
iterable sequences of a regular node type; it is embedded as a structure over
a node type `ν`.  The claims concern finite graphs, so `ν` is a `Fintype`
(hash-set membership needs decidable equality).  The visitor callback is pure
observation of the visit order, so each traversal is embedded as the list of
nodes passed to `visit`, in order. -/

structure Graph (ν : Type) where
  get_all_nodes : List ν
  get_neighbors : ν → List ν

/-- The neighbor loop of `bfs_iterative`: for each neighbor in order, if not
yet visited, mark visited and push onto the back of the queue. -/
def bfsEnqueue {ν : Type} [DecidableEq ν] :
    List ν → Finset ν → List ν → Finset ν × List ν
  | [], visited, queue => (visited, queue)
  | m :: ms, visited, queue =>
      if m ∈ visited then bfsEnqueue ms visited queue
      else bfsEnqueue ms (insert m visited) (queue ++ [m])

theorem bfsEnqueue_sub_card {ν : Type} [DecidableEq ν] :
    ∀ (ms : List ν) (v : Finset ν) (q : List ν),
      v ⊆ (bfsEnqueue ms v q).1 ∧
      (bfsEnqueue ms v q).2.length + v.card =
        q.length + (bfsEnqueue ms v q).1.card := by
  intro ms
  induction ms with
  | nil => intro v q; exact ⟨Finset.Subset.refl v, rfl⟩
  | cons m ms ih =>
      intro v q
      rw [bfsEnqueue]
      by_cases h : m ∈ v
      · rw [if_pos h]
        exact ih v q
      · rw [if_neg h]
        obtain ⟨h1, h2⟩ := ih (insert m v) (q ++ [m])
        refine ⟨(Finset.subset_insert m v).trans h1, ?_⟩
        rw [List.length_append] at h2
        rw [Finset.card_insert_of_not_mem h] at h2
        simp only [List.length_singleton] at h2
        omega

/-- The `while (!queue.empty())` loop of `bfs_iterative`/`bfs_complete`:
dequeue the front, visit it, enqueue unvisited neighbors.  Returns the visit
order and the final visited set. -/
def bfsLoop {ν : Type} [DecidableEq ν] [Fintype ν] (g : Graph ν) :
    List ν → Finset ν → List ν × Finset ν
  | [], visited => ([], visited)
  | n :: queue, visited =>
      let p := bfsEnqueue (g.get_neighbors n) visited queue
      let r := bfsLoop g p.2 p.1
      (n :: r.1, r.2)
termination_by queue visited =>
  2 * (Fintype.card ν - visited.card) + queue.length
decreasing_by
  have h1 := bfsEnqueue_sub_card (g.get_neighbors n) visited queue
  have h2 : (bfsEnqueue (g.get_neighbors n) visited queue).1.card ≤
      Fintype.card ν := Finset.card_le_univ _
  have h3 : visited.card ≤
      (bfsEnqueue (g.get_neighbors n) visited queue).1.card :=
    Finset.card_le_card h1.1
  have h4 := h1.2
  simp only [List.length_cons]
  clear h1
  omega

/-- Embedding of `algorithms::graph::bfs_iterative`: the start node is marked
visited and enqueued, then the main loop runs. -/
def bfs_iterative {ν : Type} [DecidableEq ν] [Fintype ν] (g : Graph ν)
    (start : ν) : List ν :=
  (bfsLoop g [start] {start}).1

/-- Embedding of `algorithms::graph::bfs_complete`: scan `get_all_nodes` in
order, launching the queue loop from each not-yet-visited node, sharing one
visited set. -/
def bfsCompleteLoop {ν : Type} [DecidableEq ν] [Fintype ν] (g : Graph ν) :
    List ν → Finset ν → List ν
  | [], _ => []
  | n :: rest, visited =>
      if n ∈ visited then bfsCompleteLoop g rest visited
      else
        let r := bfsLoop g [n] (insert n visited)
        r.1 ++ bfsCompleteLoop g rest r.2

def bfs_complete {ν : Type} [DecidableEq ν] [Fintype ν] (g : Graph ν) :
    List ν :=
  bfsCompleteLoop g g.get_all_nodes ∅

mutual
/-- Embedding of the recursive lambda `dfs_impl` of `dfs_recursive` and
`dfs_complete`: skip if visited, else mark, visit, recurse into the neighbors
in order.  Returns the final visited set and the visit order; the subtype
records that the visited set only grows. -/
def dfsRec {ν : Type} [DecidableEq ν] [Fintype ν] (g : Graph ν) (n : ν)
    (visited : Finset ν) : {r : Finset ν × List ν // visited ⊆ r.1} :=
  if h : n ∈ visited then ⟨(visited, []), Finset.Subset.refl visited⟩
  else
    let r := dfsRecList g (g.get_neighbors n) (insert n visited)
    ⟨(r.val.1, n :: r.val.2),
      (Finset.subset_insert n visited).trans r.property⟩
termination_by (Fintype.card ν - visited.card, 0)
decreasing_by
  apply Prod.Lex.left
  have h1 : (insert n visited).card = visited.card + 1 :=
    Finset.card_insert_of_not_mem h
  have h2 : (insert n visited).card ≤ Fintype.card ν := Finset.card_le_univ _
  omega

/-- The `for (neighbor : ...) dfs_impl(neighbor)` loop. -/
def dfsRecList {ν : Type} [DecidableEq ν] [Fintype ν] (g : Graph ν)
    (ms : List ν) (visited : Finset ν) :
    {r : Finset ν × List ν // visited ⊆ r.1} :=
  match ms with
  | [] => ⟨(visited, []), Finset.Subset.refl visited⟩
  | m :: rest =>
      let r1 := dfsRec g m visited
      let r2 := dfsRecList g rest r1.val.1
      ⟨(r2.val.1, r1.val.2 ++ r2.val.2), r1.property.trans r2.property⟩
termination_by (Fintype.card ν - visited.card, ms.length + 1)
decreasing_by
  · simp_wf
    apply Prod.Lex.right
    omega
  · simp_wf
    have h1 : visited.card ≤ r1.val.1.card := Finset.card_le_card r1.property
    have h2 : r1.val.1.card ≤ Fintype.card ν := Finset.card_le_univ _
    show Prod.Lex _ _
      (Fintype.card ν - r1.val.1.card, rest.length + 1)
      (Fintype.card ν - visited.card, rest.length + 2)
    rcases Nat.lt_or_ge (Fintype.card ν - r1.val.1.card)
        (Fintype.card ν - visited.card) with hlt | hge
    · exact Prod.Lex.left _ _ hlt
    · have heq : Fintype.card ν - r1.val.1.card =
          Fintype.card ν - visited.card := by omega
      rw [heq]
      exact Prod.Lex.right _ (by omega)
end

/-- Embedding of `algorithms::graph::dfs_recursive`. -/
def dfs_recursive {ν : Type} [DecidableEq ν] [Fintype ν] (g : Graph ν)
    (start : ν) : List ν :=
  (dfsRec g start ∅).val.2

/-- The explicit-stack loop of `dfs_iterative`: pop, skip if visited, else
mark, visit, and push the not-yet-visited neighbors in reverse order. -/
def dfsLoop {ν : Type} [DecidableEq ν] [Fintype ν] (g : Graph ν) :
    List ν → Finset ν → List ν
  | [], _ => []
  | n :: stack, visited =>
      if n ∈ visited then dfsLoop g stack visited
      else
        let visited2 := insert n visited
        let stack2 := (g.get_neighbors n).reverse.foldl
          (fun st m => if m ∈ visited2 then st else m :: st) stack
        n :: dfsLoop g stack2 visited2
termination_by stack visited => (Fintype.card ν - visited.card, stack.length)
decreasing_by
  · simp_wf
    apply Prod.Lex.right
    omega
  · simp_wf
    apply Prod.Lex.left
    have h1 : (insert n visited).card = visited.card + 1 :=
      Finset.card_insert_of_not_mem (by assumption)
    have h2 : (insert n visited).card ≤ Fintype.card ν := Finset.card_le_univ _
    omega

/-- Embedding of `algorithms::graph::dfs_iterative`: stack seeded with the
start node, visited initially empty. -/
def dfs_iterative {ν : Type} [DecidableEq ν] [Fintype ν] (g : Graph ν)
    (start : ν) : List ν :=
  dfsLoop g [start] ∅

/-- Embedding of `algorithms::graph::dfs_complete`: scan `get_all_nodes`,
running `dfs_impl` from each not-yet-visited node with a shared visited
set. -/
def dfsCompleteLoop {ν : Type} [DecidableEq ν] [Fintype ν] (g : Graph ν) :
    List ν → Finset ν → List ν
  | [], _ => []
  | n :: rest, visited =>
      if n ∈ visited then dfsCompleteLoop g rest visited
      else
        let r := dfsRec g n visited
        r.val.2 ++ dfsCompleteLoop g rest r.val.1

def dfs_complete {ν : Type} [DecidableEq ν] [Fintype ν] (g : Graph ν) :
    List ν :=
  dfsCompleteLoop g g.get_all_nodes ∅

/-- One edge of the graph: `b` occurs in `a`'s neighbor list. -/
def Step {ν : Type} (g : Graph ν) (a b : ν) : Prop :=
  b ∈ g.get_neighbors a

/-- `b` is reachable from `a` by following zero or more edges. -/
def Reaches {ν : Type} (g : Graph ν) (a b : ν) : Prop :=
  Relation.ReflTransGen (Step g) a b

/-- Claim C10: for every graph and start node — including a start node with no
neighbors or absent from `get_all_nodes` — `bfs_iterative` and `dfs_iterative`
invoke the visitor at least once, and the first invocation is the start node
itself (the start is visited before its neighbor list influences anything). -/
theorem traversal_starts_at_start {ν : Type} [DecidableEq ν] [Fintype ν]
    (g : Graph ν) (start : ν) :
    bfs_iterative g start ≠ [] ∧
    (bfs_iterative g start).head? = some start ∧
    dfs_iterative g start ≠ [] ∧
    (dfs_iterative g start).head? = some start := by
  have hb : ∃ t, bfs_iterative g start = start :: t := by
    rw [bfs_iterative, bfsLoop]
    exact ⟨_, rfl⟩
  have hd : ∃ t, dfs_iterative g start = start :: t := by
    rw [dfs_iterative, dfsLoop]
    rw [if_neg (by simp : ¬ start ∈ (∅ : Finset ν))]
    exact ⟨_, rfl⟩
  obtain ⟨t1, hb⟩ := hb
  obtain ⟨t2, hd⟩ := hd
  exact ⟨by simp [hb], by simp [hb], by simp [hd], by simp [hd]⟩

theorem bfsEnqueue_spec {ν : Type} [DecidableEq ν] :
    ∀ (ms : List ν) (v : Finset ν) (q : List ν),
      (∀ x, x ∈ (bfsEnqueue ms v q).1 ↔ x ∈ v ∨ x ∈ ms) ∧
      (∀ x, x ∈ (bfsEnqueue ms v q).2 ↔ x ∈ q ∨ (x ∈ ms ∧ x ∉ v)) ∧
      (q.Nodup → (∀ x ∈ q, x ∈ v) →
        ((bfsEnqueue ms v q).2.Nodup ∧
          ∀ x ∈ (bfsEnqueue ms v q).2, x ∈ (bfsEnqueue ms v q).1)) := by
  intro ms
  induction ms with
  | nil =>
      intro v q
      refine ⟨fun x => by simp [bfsEnqueue], fun x => by simp [bfsEnqueue], ?_⟩
      intro hnd hqv
      exact ⟨hnd, hqv⟩
  | cons m ms ih =>
      intro v q
      rw [bfsEnqueue]
      by_cases h : m ∈ v
      · rw [if_pos h]
        obtain ⟨i1, i2, i3⟩ := ih v q
        refine ⟨?_, ?_, i3⟩
        · intro x
          rw [i1 x, List.mem_cons]
          constructor
          · rintro (hx | hx)
            · exact Or.inl hx
            · exact Or.inr (Or.inr hx)
          · rintro (hx | rfl | hx)
            · exact Or.inl hx
            · exact Or.inl h
            · exact Or.inr hx
        · intro x
          rw [i2 x, List.mem_cons]
          constructor
          · rintro (hx | ⟨hx1, hx2⟩)
            · exact Or.inl hx
            · exact Or.inr ⟨Or.inr hx1, hx2⟩
          · rintro (hx | ⟨rfl | hx1, hx2⟩)
            · exact Or.inl hx
            · exact absurd h hx2
            · exact Or.inr ⟨hx1, hx2⟩
      · rw [if_neg h]
        obtain ⟨i1, i2, i3⟩ := ih (insert m v) (q ++ [m])
        refine ⟨?_, ?_, ?_⟩
        · intro x
          rw [i1 x, Finset.mem_insert, List.mem_cons]
          tauto
        · intro x
          rw [i2 x, List.mem_append, List.mem_singleton, List.mem_cons]
          constructor
          · rintro ((hx | rfl) | ⟨hx1, hx2⟩)
            · exact Or.inl hx
            · exact Or.inr ⟨Or.inl rfl, h⟩
            · rw [Finset.mem_insert] at hx2
              push_neg at hx2
              exact Or.inr ⟨Or.inr hx1, hx2.2⟩
          · rintro (hx | ⟨rfl | hx1, hx2⟩)
            · exact Or.inl (Or.inl hx)
            · exact Or.inl (Or.inr rfl)
            · by_cases hxm : x = m
              · exact Or.inl (Or.inr hxm)
              · refine Or.inr ⟨hx1, ?_⟩
                rw [Finset.mem_insert]
                push_neg
                exact ⟨hxm, hx2⟩
        · intro hnd hqv
          refine i3 ?_ ?_
          · refine List.Nodup.append hnd (List.nodup_singleton m) ?_
            intro a ha hb
            rw [List.mem_singleton] at hb
            subst hb
            exact h (hqv a ha)
          · intro x hx
            rcases List.mem_append.mp hx with hx | hx
            · exact Finset.mem_insert_of_mem (hqv x hx)
            · rw [List.mem_singleton] at hx
              subst hx
              exact Finset.mem_insert_self x v

theorem bfsLoop_spec {ν : Type} [DecidableEq ν] [Fintype ν] (g : Graph ν) :
    ∀ (q : List ν) (v : Finset ν), (∀ x ∈ q, x ∈ v) → q.Nodup →
      (∀ x ∈ q, x ∈ (bfsLoop g q v).1) ∧
      (∀ x, x ∈ (bfsLoop g q v).2 ↔ x ∈ v ∨ x ∈ (bfsLoop g q v).1) ∧
      (∀ x ∈ (bfsLoop g q v).1, x ∈ v → x ∈ q) ∧
      (bfsLoop g q v).1.Nodup ∧
      (∀ x ∈ (bfsLoop g q v).1, ∀ m ∈ g.get_neighbors x,
        m ∈ (bfsLoop g q v).2) ∧
      (∀ x ∈ (bfsLoop g q v).1, ∃ s ∈ q, Reaches g s x) := by
  intro q v
  induction q, v using bfsLoop.induct g with
  | case1 v =>
      intro hqv hnd
      refine ⟨by simp [bfsLoop], ?_, by simp [bfsLoop], by simp [bfsLoop],
        by simp [bfsLoop], by simp [bfsLoop]⟩
      intro x
      simp [bfsLoop]
  | case2 n queue visited p ih =>
      intro hqv hnd
      obtain ⟨e1, e2, e3⟩ := bfsEnqueue_spec (g.get_neighbors n) visited queue
      have hqv2 : ∀ x ∈ queue, x ∈ visited :=
        fun x hx => hqv x (List.mem_cons_of_mem n hx)
      have hnv : n ∈ visited := hqv n (List.mem_cons_self n queue)
      have hndq : queue.Nodup := (List.nodup_cons.mp hnd).2
      have hnnq : n ∉ queue := (List.nodup_cons.mp hnd).1
      obtain ⟨hendp, hesub⟩ := e3 hndq hqv2
      obtain ⟨i1, i2, i3, i4, i5, i6⟩ := ih hesub hendp
      have hunfold : bfsLoop g (n :: queue) visited =
          (n :: (bfsLoop g p.2 p.1).1, (bfsLoop g p.2 p.1).2) := by
        rw [bfsLoop]
      have hu1 : (bfsLoop g (n :: queue) visited).1 =
          n :: (bfsLoop g p.2 p.1).1 := by rw [hunfold]
      have hu2 : (bfsLoop g (n :: queue) visited).2 =
          (bfsLoop g p.2 p.1).2 := by rw [hunfold]
      have e1' : ∀ x, x ∈ p.1 ↔ x ∈ visited ∨ x ∈ g.get_neighbors n := e1
      have e2' : ∀ x, x ∈ p.2 ↔ x ∈ queue ∨ (x ∈ g.get_neighbors n ∧ x ∉ visited) := e2
      simp only [hu1, hu2]
      refine ⟨?_, ?_, ?_, ?_, ?_, ?_⟩
      · intro x hx
        rcases List.mem_cons.mp hx with rfl | hx
        · exact List.mem_cons_self x _
        · exact List.mem_cons_of_mem n (i1 x ((e2' x).mpr (Or.inl hx)))
      · intro x
        rw [i2 x, e1' x, List.mem_cons]
        constructor
        · rintro ((hx | hx) | hx)
          · exact Or.inl hx
          · by_cases hv : x ∈ visited
            · exact Or.inl hv
            · exact Or.inr (Or.inr (i1 x ((e2' x).mpr (Or.inr ⟨hx, hv⟩))))
          · exact Or.inr (Or.inr hx)
        · rintro (hx | rfl | hx)
          · exact Or.inl (Or.inl hx)
          · exact Or.inl (Or.inl hnv)
          · exact Or.inr hx
      · intro x hx hv
        rcases List.mem_cons.mp hx with rfl | hx
        · exact List.mem_cons_self x _
        · have hxe1 : x ∈ p.1 := (e1' x).mpr (Or.inl hv)
          rcases (e2' x).mp (i3 x hx hxe1) with hq | ⟨_, hnv2⟩
          · exact List.mem_cons_of_mem n hq
          · exact absurd hv hnv2
      · refine List.nodup_cons.mpr ⟨?_, i4⟩
        intro hn
        have hne1 : n ∈ p.1 := (e1' n).mpr (Or.inl hnv)
        rcases (e2' n).mp (i3 n hn hne1) with hq | ⟨_, hnv2⟩
        · exact hnnq hq
        · exact hnv2 hnv
      · intro x hx m hm
        rcases List.mem_cons.mp hx with rfl | hx
        · exact (i2 m).mpr (Or.inl ((e1' m).mpr (Or.inr hm)))
        · exact i5 x hx m hm
      · intro x hx
        rcases List.mem_cons.mp hx with rfl | hx
        · exact ⟨x, List.mem_cons_self x _, Relation.ReflTransGen.refl⟩
        · obtain ⟨s, hs, hr⟩ := i6 x hx
          rcases (e2' s).mp hs with hq | ⟨hnbr, _⟩
          · exact ⟨s, List.mem_cons_of_mem n hq, hr⟩
          · exact ⟨n, List.mem_cons_self n _, Relation.ReflTransGen.head hnbr hr⟩

theorem dfs_rec_spec {ν : Type} [DecidableEq ν] [Fintype ν] (g : Graph ν) :
    (∀ (n : ν) (v : Finset ν),
      (∀ x, x ∈ (dfsRec g n v).val.1 ↔ x ∈ v ∨ x ∈ (dfsRec g n v).val.2) ∧
      (dfsRec g n v).val.2.Nodup ∧
      (∀ x ∈ (dfsRec g n v).val.2, x ∉ v) ∧
      n ∈ (dfsRec g n v).val.1 ∧
      (∀ x ∈ (dfsRec g n v).val.2, Reaches g n x) ∧
      (∀ x ∈ (dfsRec g n v).val.2, ∀ m ∈ g.get_neighbors x,
        m ∈ (dfsRec g n v).val.1)) ∧
    (∀ (ms : List ν) (v : Finset ν),
      (∀ x, x ∈ (dfsRecList g ms v).val.1 ↔
        x ∈ v ∨ x ∈ (dfsRecList g ms v).val.2) ∧
      (dfsRecList g ms v).val.2.Nodup ∧
      (∀ x ∈ (dfsRecList g ms v).val.2, x ∉ v) ∧
      (∀ m ∈ ms, m ∈ (dfsRecList g ms v).val.1) ∧
      (∀ x ∈ (dfsRecList g ms v).val.2, ∃ m ∈ ms, Reaches g m x) ∧
      (∀ x ∈ (dfsRecList g ms v).val.2, ∀ m ∈ g.get_neighbors x,
        m ∈ (dfsRecList g ms v).val.1)) := by
  apply Algorithms.dfsRec.mutual_induct g
  · -- already-visited node: no-op
    intro n v h
    have hval : (dfsRec g n v).val = (v, []) := by
      rw [dfsRec, dif_pos h]
    rw [hval]
    exact ⟨fun x => by simp, List.nodup_nil, by simp, h, by simp, by simp⟩
  · -- fresh node: mark, visit, recurse into neighbors
    intro n v h ih
    obtain ⟨a2, b2, c2, d2, e2, f2⟩ := ih
    have hval : (dfsRec g n v).val =
        ((dfsRecList g (g.get_neighbors n) (insert n v)).val.1,
          n :: (dfsRecList g (g.get_neighbors n) (insert n v)).val.2) := by
      rw [dfsRec, dif_neg h]
    rw [hval]
    refine ⟨?_, ?_, ?_, ?_, ?_, ?_⟩
    · intro x
      rw [a2 x, Finset.mem_insert, List.mem_cons]
      tauto
    · refine List.nodup_cons.mpr ⟨?_, b2⟩
      intro hn
      exact c2 n hn (Finset.mem_insert_self n v)
    · intro x hx
      rcases List.mem_cons.mp hx with rfl | hx
      · exact h
      · exact fun hv => c2 x hx (Finset.mem_insert_of_mem hv)
    · exact (dfsRecList g (g.get_neighbors n) (insert n v)).property
        (Finset.mem_insert_self n v)
    · intro x hx
      rcases List.mem_cons.mp hx with rfl | hx
      · exact Relation.ReflTransGen.refl
      · obtain ⟨m, hm, hr⟩ := e2 x hx
        exact Relation.ReflTransGen.head hm hr
    · intro x hx m hm
      rcases List.mem_cons.mp hx with rfl | hx
      · exact d2 m hm
      · exact f2 x hx m hm
  · -- empty neighbor list
    intro v
    have hval : (dfsRecList g [] v).val = (v, []) := by
      rw [dfsRecList]
    rw [hval]
    exact ⟨fun x => by simp, List.nodup_nil, by simp, by simp, by simp, by simp⟩
  · -- neighbor list cons: recurse on head, then on the rest
    intro v m rest
    intro r1 ih1 _ ih2 _
    obtain ⟨a1, b1, c1, d1, e1, f1⟩ := ih1
    obtain ⟨a2, b2, c2, d2, e2, f2⟩ := ih2
    have hval : (dfsRecList g (m :: rest) v).val =
        ((dfsRecList g rest (dfsRec g m v).val.1).val.1,
          (dfsRec g m v).val.2 ++
            (dfsRecList g rest (dfsRec g m v).val.1).val.2) := by
      rw [dfsRecList]
    have hsub1 : v ⊆ (dfsRec g m v).val.1 := (dfsRec g m v).property
    have hsub2 : (dfsRec g m v).val.1 ⊆
        (dfsRecList g rest (dfsRec g m v).val.1).val.1 :=
      (dfsRecList g rest (dfsRec g m v).val.1).property
    have hout1 : ∀ x ∈ (dfsRec g m v).val.2, x ∈ (dfsRec g m v).val.1 :=
      fun x hx => (a1 x).mpr (Or.inr hx)
    rw [hval]
    refine ⟨?_, ?_, ?_, ?_, ?_, ?_⟩
    · intro x
      rw [a2 x, a1 x, List.mem_append]
      tauto
    · refine List.Nodup.append b1 b2 ?_
      intro x hx1 hx2
      exact c2 x hx2 (hout1 x hx1)
    · intro x hx
      rcases List.mem_append.mp hx with hx | hx
      · exact c1 x hx
      · exact fun hv => c2 x hx (hsub1 hv)
    · intro y hy
      rcases List.mem_cons.mp hy with rfl | hy
      · exact hsub2 d1
      · exact d2 y hy
    · intro x hx
      rcases List.mem_append.mp hx with hx | hx
      · exact ⟨m, List.mem_cons_self m rest, e1 x hx⟩
      · obtain ⟨y, hy, hr⟩ := e2 x hx
        exact ⟨y, List.mem_cons_of_mem m hy, hr⟩
    · intro x hx y hy
      rcases List.mem_append.mp hx with hx | hx
      · exact hsub2 (f1 x hx y hy)
      · exact f2 x hx y hy

theorem reaches_mem_nodes {ν : Type} (g : Graph ν)
    (hclosed : ∀ n ∈ g.get_all_nodes, ∀ m ∈ g.get_neighbors n,
      m ∈ g.get_all_nodes)
    {a b : ν} (ha : a ∈ g.get_all_nodes) (h : Reaches g a b) :
    b ∈ g.get_all_nodes := by
  induction h with
  | refl => exact ha
  | tail hab hbc ih => exact hclosed _ ih _ hbc

theorem bfs_iterative_spec {ν : Type} [DecidableEq ν] [Fintype ν]
    (g : Graph ν) (start : ν) :
    (bfs_iterative g start).Nodup ∧
    ∀ x, x ∈ bfs_iterative g start ↔ Reaches g start x := by
  obtain ⟨i1, i2, i3, i4, i5, i6⟩ := bfsLoop_spec g [start] {start}
    (by intro x hx
        rw [List.mem_singleton] at hx
        subst hx
        exact Finset.mem_singleton_self x)
    (List.nodup_singleton start)
  rw [bfs_iterative]
  have hstart : start ∈ (bfsLoop g [start] {start}).1 :=
    i1 start (List.mem_singleton_self start)
  refine ⟨i4, fun x => ⟨?_, ?_⟩⟩
  · intro hx
    obtain ⟨s, hs, hr⟩ := i6 x hx
    rw [List.mem_singleton] at hs
    subst hs
    exact hr
  · intro hr
    have hvis : ∀ y, Reaches g start y → y ∈ (bfsLoop g [start] {start}).2 := by
      intro y hy
      induction hy with
      | refl => exact (i2 start).mpr (Or.inr hstart)
      | tail hab hbc ih =>
          rcases (i2 _).mp ih with hb | hb
          · rw [Finset.mem_singleton] at hb
            subst hb
            exact i5 _ hstart _ hbc
          · exact i5 _ hb _ hbc
    rcases (i2 x).mp (hvis x hr) with hx | hx
    · rw [Finset.mem_singleton] at hx
      subst hx
      exact hstart
    · exact hx

theorem dfs_recursive_spec {ν : Type} [DecidableEq ν] [Fintype ν]
    (g : Graph ν) (start : ν) :
    (dfs_recursive g start).Nodup ∧
    ∀ x, x ∈ dfs_recursive g start ↔ Reaches g start x := by
  obtain ⟨hP1, _⟩ := dfs_rec_spec g
  obtain ⟨a1, b1, c1, d1, e1, f1⟩ := hP1 start ∅
  rw [dfs_recursive]
  refine ⟨b1, fun x => ⟨fun hx => e1 x hx, fun hr => ?_⟩⟩
  have hvis : ∀ y, Reaches g start y → y ∈ (dfsRec g start ∅).val.1 := by
    intro y hy
    induction hy with
    | refl => exact d1
    | tail hab hbc ih =>
        rcases (a1 _).mp ih with hb | hb
        · exact absurd hb (Finset.not_mem_empty _)
        · exact f1 _ hb _ hbc
  rcases (a1 x).mp (hvis x hr) with hx | hx
  · exact absurd hx (Finset.not_mem_empty _)
  · exact hx

theorem foldl_push_eq_filter {ν : Type} [DecidableEq ν] :
    ∀ (l : List ν) (st : List ν) (v : Finset ν),
      List.foldl (fun s m => if m ∈ v then s else m :: s) st l.reverse =
        l.filter (fun m => decide (m ∉ v)) ++ st := by
  intro l st v
  rw [List.foldl_reverse]
  induction l with
  | nil => simp
  | cons m l ih =>
      rw [List.foldr_cons, ih, List.filter_cons]
      by_cases h : m ∈ v
      · simp [h]
      · simp [h]

theorem dfsRecList_append {ν : Type} [DecidableEq ν] [Fintype ν]
    (g : Graph ν) :
    ∀ (l1 l2 : List ν) (v : Finset ν),
      (dfsRecList g (l1 ++ l2) v).val =
        ((dfsRecList g l2 (dfsRecList g l1 v).val.1).val.1,
          (dfsRecList g l1 v).val.2 ++
            (dfsRecList g l2 (dfsRecList g l1 v).val.1).val.2) := by
  intro l1
  induction l1 with
  | nil =>
      intro l2 v
      have h0 : (dfsRecList g ([] : List ν) v).val = (v, []) := by
        rw [dfsRecList]
      rw [List.nil_append]
      rw [h0]
      simp
  | cons m l1 ih =>
      intro l2 v
      rw [List.cons_append]
      have hL : (dfsRecList g (m :: (l1 ++ l2)) v).val =
          ((dfsRecList g (l1 ++ l2) (dfsRec g m v).val.1).val.1,
            (dfsRec g m v).val.2 ++
              (dfsRecList g (l1 ++ l2) (dfsRec g m v).val.1).val.2) := by
        rw [dfsRecList]
      have hR : (dfsRecList g (m :: l1) v).val =
          ((dfsRecList g l1 (dfsRec g m v).val.1).val.1,
            (dfsRec g m v).val.2 ++
              (dfsRecList g l1 (dfsRec g m v).val.1).val.2) := by
        rw [dfsRecList]
      rw [hL, hR, ih l2 (dfsRec g m v).val.1]
      simp [List.append_assoc]

theorem dfsRecList_filter {ν : Type} [DecidableEq ν] [Fintype ν]
    (g : Graph ν) :
    ∀ (l : List ν) (w v : Finset ν), w ⊆ v →
      (dfsRecList g (l.filter (fun m => decide (m ∉ w))) v).val =
        (dfsRecList g l v).val := by
  intro l
  induction l with
  | nil => intro w v _; rw [List.filter_nil]
  | cons m l ih =>
      intro w v hwv
      rw [List.filter_cons]
      by_cases hm : m ∈ w
      · rw [if_neg (by simp [hm])]
        have h1 : (dfsRec g m v).val = (v, []) := by
          rw [dfsRec, dif_pos (hwv hm)]
        have h2 : (dfsRecList g (m :: l) v).val =
            ((dfsRecList g l (dfsRec g m v).val.1).val.1,
              (dfsRec g m v).val.2 ++
                (dfsRecList g l (dfsRec g m v).val.1).val.2) := by
          rw [dfsRecList]
        rw [h2, h1, ih w v hwv]
        simp
      · rw [if_pos (by simp [hm])]
        have h2L : (dfsRecList g (m :: l.filter (fun m => decide (m ∉ w))) v).val =
            ((dfsRecList g (l.filter (fun m => decide (m ∉ w)))
                (dfsRec g m v).val.1).val.1,
              (dfsRec g m v).val.2 ++
                (dfsRecList g (l.filter (fun m => decide (m ∉ w)))
                  (dfsRec g m v).val.1).val.2) := by
          rw [dfsRecList]
        have h2R : (dfsRecList g (m :: l) v).val =
            ((dfsRecList g l (dfsRec g m v).val.1).val.1,
              (dfsRec g m v).val.2 ++
                (dfsRecList g l (dfsRec g m v).val.1).val.2) := by
          rw [dfsRecList]
        rw [h2L, h2R, ih w (dfsRec g m v).val.1
          (hwv.trans (dfsRec g m v).property)]

theorem dfsLoop_eq_dfsRecList {ν : Type} [DecidableEq ν] [Fintype ν]
    (g : Graph ν) :
    ∀ (stack : List ν) (v : Finset ν),
      dfsLoop g stack v = (dfsRecList g stack v).val.2 := by
  intro stack v
  induction stack, v using dfsLoop.induct g with
  | case1 v =>
      rw [dfsLoop]
      have h0 : (dfsRecList g ([] : List ν) v).val = (v, []) := by
        rw [dfsRecList]
      rw [h0]
  | case2 n stack v hin ih =>
      have h1 : (dfsRec g n v).val = (v, []) := by
        rw [dfsRec, dif_pos hin]
      have h2 : (dfsRecList g (n :: stack) v).val =
          ((dfsRecList g stack (dfsRec g n v).val.1).val.1,
            (dfsRec g n v).val.2 ++
              (dfsRecList g stack (dfsRec g n v).val.1).val.2) := by
        rw [dfsRecList]
      rw [dfsLoop, if_pos hin, h2, h1, ih]
      simp
  | case3 n stack v hnin visited2 stack2 ih =>
      have hstack2 : stack2 =
          (g.get_neighbors n).filter (fun m => decide (m ∉ visited2)) ++
            stack :=
        foldl_push_eq_filter (g.get_neighbors n) stack visited2
      have hrec : (dfsRec g n v).val =
          ((dfsRecList g (g.get_neighbors n) visited2).val.1,
            n :: (dfsRecList g (g.get_neighbors n) visited2).val.2) := by
        rw [dfsRec, dif_neg hnin]
      have h2 : (dfsRecList g (n :: stack) v).val =
          ((dfsRecList g stack (dfsRec g n v).val.1).val.1,
            (dfsRec g n v).val.2 ++
              (dfsRecList g stack (dfsRec g n v).val.1).val.2) := by
        rw [dfsRecList]
      have hunf : dfsLoop g (n :: stack) v = n :: dfsLoop g stack2 visited2 := by
        rw [dfsLoop, if_neg hnin]
        rfl
      rw [hunf, ih, hstack2,
        dfsRecList_append g ((g.get_neighbors n).filter
          (fun m => decide (m ∉ visited2))) stack visited2,
        dfsRecList_filter g (g.get_neighbors n) visited2 visited2
          (Finset.Subset.refl visited2),
        h2, hrec]
      simp

theorem dfs_rec_iter_agree {ν : Type} [DecidableEq ν] [Fintype ν]
    (g : Graph ν) (start : ν) :
    dfs_recursive g start = dfs_iterative g start := by
  rw [dfs_iterative, dfs_recursive, dfsLoop_eq_dfsRecList]
  have h2 : (dfsRecList g [start] ∅).val =
      ((dfsRecList g ([] : List ν) (dfsRec g start ∅).val.1).val.1,
        (dfsRec g start ∅).val.2 ++
          (dfsRecList g ([] : List ν) (dfsRec g start ∅).val.1).val.2) := by
    conv_lhs => rw [dfsRecList]
  have h0 : (dfsRecList g ([] : List ν) (dfsRec g start ∅).val.1).val =
      ((dfsRec g start ∅).val.1, []) := by
    rw [dfsRecList]
  rw [h2, h0]
  simp

theorem bfsCompleteLoop_spec {ν : Type} [DecidableEq ν] [Fintype ν]
    (g : Graph ν) :
    ∀ (ns : List ν) (v : Finset ν),
      (∀ x ∈ bfsCompleteLoop g ns v, x ∉ v) ∧
      (bfsCompleteLoop g ns v).Nodup ∧
      (∀ m ∈ ns, m ∈ v ∨ m ∈ bfsCompleteLoop g ns v) ∧
      (∀ x ∈ bfsCompleteLoop g ns v, ∃ m ∈ ns, Reaches g m x) := by
  intro ns
  induction ns with
  | nil =>
      intro v
      exact ⟨by simp [bfsCompleteLoop], by simp [bfsCompleteLoop],
        by simp, by simp [bfsCompleteLoop]⟩
  | cons n rest ih =>
      intro v
      by_cases h : n ∈ v
      · have hunf : bfsCompleteLoop g (n :: rest) v =
            bfsCompleteLoop g rest v := by
          rw [bfsCompleteLoop, if_pos h]
        obtain ⟨A, B, C, D⟩ := ih v
        rw [hunf]
        refine ⟨A, B, ?_, ?_⟩
        · intro m hm
          rcases List.mem_cons.mp hm with rfl | hm
          · exact Or.inl h
          · exact C m hm
        · intro x hx
          obtain ⟨m, hm, hr⟩ := D x hx
          exact ⟨m, List.mem_cons_of_mem n hm, hr⟩
      · have hunf : bfsCompleteLoop g (n :: rest) v =
            (bfsLoop g [n] (insert n v)).1 ++
              bfsCompleteLoop g rest (bfsLoop g [n] (insert n v)).2 := by
          rw [bfsCompleteLoop, if_neg h]
        obtain ⟨i1, i2, i3, i4, i5, i6⟩ := bfsLoop_spec g [n] (insert n v)
          (by intro x hx
              rw [List.mem_singleton] at hx
              subst hx
              exact Finset.mem_insert_self x v)
          (List.nodup_singleton n)
        obtain ⟨A, B, C, D⟩ := ih (bfsLoop g [n] (insert n v)).2
        have hout1sub : ∀ x ∈ (bfsLoop g [n] (insert n v)).1,
            x ∈ (bfsLoop g [n] (insert n v)).2 :=
          fun x hx => (i2 x).mpr (Or.inr hx)
        have hout1v : ∀ x ∈ (bfsLoop g [n] (insert n v)).1, x ∉ v := by
          intro x hx hv
          have hx2 := i3 x hx (Finset.mem_insert_of_mem hv)
          rw [List.mem_singleton] at hx2
          subst hx2
          exact h hv
        rw [hunf]
        refine ⟨?_, ?_, ?_, ?_⟩
        · intro x hx
          rcases List.mem_append.mp hx with hx | hx
          · exact hout1v x hx
          · intro hv
            exact A x hx ((i2 x).mpr
              (Or.inl (Finset.mem_insert_of_mem hv)))
        · refine List.Nodup.append i4 B ?_
          intro x hx1 hx2
          exact A x hx2 (hout1sub x hx1)
        · intro m hm
          rcases List.mem_cons.mp hm with rfl | hm
          · exact Or.inr (List.mem_append.mpr
              (Or.inl (i1 m (List.mem_singleton_self m))))
          · rcases C m hm with hm2 | hm2
            · rcases (i2 m).mp hm2 with hm3 | hm3
              · rcases Finset.mem_insert.mp hm3 with rfl | hm4
                · exact Or.inr (List.mem_append.mpr
                    (Or.inl (i1 m (List.mem_singleton_self m))))
                · exact Or.inl hm4
              · exact Or.inr (List.mem_append.mpr (Or.inl hm3))
            · exact Or.inr (List.mem_append.mpr (Or.inr hm2))
        · intro x hx
          rcases List.mem_append.mp hx with hx | hx
          · obtain ⟨s, hs, hr⟩ := i6 x hx
            rw [List.mem_singleton] at hs
            subst hs
            exact ⟨s, List.mem_cons_self s rest, hr⟩
          · obtain ⟨m, hm, hr⟩ := D x hx
            exact ⟨m, List.mem_cons_of_mem n hm, hr⟩

theorem dfsCompleteLoop_spec {ν : Type} [DecidableEq ν] [Fintype ν]
    (g : Graph ν) :
    ∀ (ns : List ν) (v : Finset ν),
      (∀ x ∈ dfsCompleteLoop g ns v, x ∉ v) ∧
      (dfsCompleteLoop g ns v).Nodup ∧
      (∀ m ∈ ns, m ∈ v ∨ m ∈ dfsCompleteLoop g ns v) ∧
      (∀ x ∈ dfsCompleteLoop g ns v, ∃ m ∈ ns, Reaches g m x) := by
  intro ns
  induction ns with
  | nil =>
      intro v
      exact ⟨by simp [dfsCompleteLoop], by simp [dfsCompleteLoop],
        by simp, by simp [dfsCompleteLoop]⟩
  | cons n rest ih =>
      intro v
      by_cases h : n ∈ v
      · have hunf : dfsCompleteLoop g (n :: rest) v =
            dfsCompleteLoop g rest v := by
          rw [dfsCompleteLoop, if_pos h]
        obtain ⟨A, B, C, D⟩ := ih v
        rw [hunf]
        refine ⟨A, B, ?_, ?_⟩
        · intro m hm
          rcases List.mem_cons.mp hm with rfl | hm
          · exact Or.inl h
          · exact C m hm
        · intro x hx
          obtain ⟨m, hm, hr⟩ := D x hx
          exact ⟨m, List.mem_cons_of_mem n hm, hr⟩
      · have hunf : dfsCompleteLoop g (n :: rest) v =
            (dfsRec g n v).val.2 ++
              dfsCompleteLoop g rest (dfsRec g n v).val.1 := by
          rw [dfsCompleteLoop, if_neg h]
        obtain ⟨a1, b1, c1, d1, e1, f1⟩ := (dfs_rec_spec g).1 n v
        obtain ⟨A, B, C, D⟩ := ih (dfsRec g n v).val.1
        have hout1sub : ∀ x ∈ (dfsRec g n v).val.2,
            x ∈ (dfsRec g n v).val.1 :=
          fun x hx => (a1 x).mpr (Or.inr hx)
        rw [hunf]
        refine ⟨?_, ?_, ?_, ?_⟩
        · intro x hx
          rcases List.mem_append.mp hx with hx | hx
          · exact c1 x hx
          · exact fun hv => A x hx ((a1 x).mpr (Or.inl hv))
        · refine List.Nodup.append b1 B ?_
          intro x hx1 hx2
          exact A x hx2 (hout1sub x hx1)
        · intro m hm
          rcases List.mem_cons.mp hm with rfl | hm
          · rcases (a1 m).mp d1 with hm2 | hm2
            · exact absurd hm2 h
            · exact Or.inr (List.mem_append.mpr (Or.inl hm2))
          · rcases C m hm with hm2 | hm2
            · rcases (a1 m).mp hm2 with hm3 | hm3
              · exact Or.inl hm3
              · exact Or.inr (List.mem_append.mpr (Or.inl hm3))
            · exact Or.inr (List.mem_append.mpr (Or.inr hm2))
        · intro x hx
          rcases List.mem_append.mp hx with hx | hx
          · exact ⟨n, List.mem_cons_self n rest, e1 x hx⟩
          · obtain ⟨m, hm, hr⟩ := D x hx
            exact ⟨m, List.mem_cons_of_mem n hm, hr⟩

/-- Claim C6: for every finite graph and start node, `dfs_recursive` and
`dfs_iterative` invoke the visitor on the same nodes in the same order: the
iterative variant pushes each node's neighbors in reverse onto its explicit
stack and skips already-visited entries at pop time, which reproduces exactly
the recursive left-to-right visitation order. -/
theorem dfs_recursive_eq_iterative {ν : Type} [DecidableEq ν] [Fintype ν]
    (g : Graph ν) (start : ν) :
    dfs_recursive g start = dfs_iterative g start :=
  dfs_rec_iter_agree g start

/-- Claim C5: in the single-source traversals (`bfs_iterative`,
`dfs_iterative`, `dfs_recursive`) the visitor is invoked exactly once per node
reachable from the start (the visit list is duplicate-free and contains
precisely the reachable nodes), and in the all-components traversals
(`bfs_complete`, `dfs_complete`) exactly once per node of the graph (for a
graph whose neighbor lists stay inside its node set): once a node is inserted
into the visited set it is never visited again. -/
theorem visitor_called_exactly_once {ν : Type} [DecidableEq ν] [Fintype ν]
    (g : Graph ν) (start : ν)
    (hclosed : ∀ n ∈ g.get_all_nodes, ∀ m ∈ g.get_neighbors n,
      m ∈ g.get_all_nodes) :
    ((bfs_iterative g start).Nodup ∧
      (∀ x, x ∈ bfs_iterative g start ↔ Reaches g start x)) ∧
    ((dfs_iterative g start).Nodup ∧
      (∀ x, x ∈ dfs_iterative g start ↔ Reaches g start x)) ∧
    ((dfs_recursive g start).Nodup ∧
      (∀ x, x ∈ dfs_recursive g start ↔ Reaches g start x)) ∧
    ((bfs_complete g).Nodup ∧
      (∀ x, x ∈ bfs_complete g ↔ x ∈ g.get_all_nodes)) ∧
    ((dfs_complete g).Nodup ∧
      (∀ x, x ∈ dfs_complete g ↔ x ∈ g.get_all_nodes)) := by
  have hbfs := bfs_iterative_spec g start
  have hdfsr := dfs_recursive_spec g start
  have hdfsi : (dfs_iterative g start).Nodup ∧
      (∀ x, x ∈ dfs_iterative g start ↔ Reaches g start x) := by
    rw [← dfs_rec_iter_agree g start]
    exact hdfsr
  obtain ⟨A, B, C, D⟩ := bfsCompleteLoop_spec g g.get_all_nodes ∅
  obtain ⟨A2, B2, C2, D2⟩ := dfsCompleteLoop_spec g g.get_all_nodes ∅
  refine ⟨hbfs, hdfsi, hdfsr, ⟨B, fun x => ⟨?_, ?_⟩⟩, ⟨B2, fun x => ⟨?_, ?_⟩⟩⟩
  · intro hx
    obtain ⟨m, hm, hr⟩ := D x hx
    exact reaches_mem_nodes g hclosed hm hr
  · intro hx
    rcases C x hx with hc | hc
    · exact absurd hc (Finset.not_mem_empty x)
    · exact hc
  · intro hx
    obtain ⟨m, hm, hr⟩ := D2 x hx
    exact reaches_mem_nodes g hclosed hm hr
  · intro hx
    rcases C2 x hx with hc | hc
    · exact absurd hc (Finset.not_mem_empty x)
    · exact hc

/-- The spec's running example: a directed graph on five nodes with edges
`0->1, 0->2, 1->3, 1->4`. -/
def exampleGraph : Graph (Fin 5) where
  get_all_nodes := [0, 1, 2, 3, 4]
  get_neighbors := fun n =>
    if n = 0 then [1, 2] else if n = 1 then [3, 4] else []

/-- Witness for C5 on the example graph, starting at node `0`. -/
theorem visitor_called_exactly_once_witness :
    ((bfs_iterative exampleGraph 0).Nodup ∧
      (∀ x, x ∈ bfs_iterative exampleGraph 0 ↔ Reaches exampleGraph 0 x)) ∧
    ((dfs_iterative exampleGraph 0).Nodup ∧
      (∀ x, x ∈ dfs_iterative exampleGraph 0 ↔ Reaches exampleGraph 0 x)) ∧
    ((dfs_recursive exampleGraph 0).Nodup ∧
      (∀ x, x ∈ dfs_recursive exampleGraph 0 ↔ Reaches exampleGraph 0 x)) ∧
    ((bfs_complete exampleGraph).Nodup ∧
      (∀ x, x ∈ bfs_complete exampleGraph ↔
        x ∈ exampleGraph.get_all_nodes)) ∧
    ((dfs_complete exampleGraph).Nodup ∧
      (∀ x, x ∈ dfs_complete exampleGraph ↔
        x ∈ exampleGraph.get_all_nodes)) :=
  visitor_called_exactly_once exampleGraph 0 (by decide)

end Algorithms
